import Mathlib

set_option maxHeartbeats 1000000

/- Shallow embedding of the DSP routines of the repository
   (src/filters.rs, src/fx.rs, src/dsp.rs, src/eq.rs).

   Modelling conventions:
   * f32 samples and parameters are modelled exactly: functions that use
     only field operations are embedded over the rationals, and functions
     whose coefficients involve transcendental functions (sin, cos, exp,
     powf) are embedded over the reals.
   * A Rust panic (out-of-bounds index, usize underflow) is modelled by
     an Option-valued embedding returning none.
   * An `x as usize` cast of a nonnegative f32 truncates toward zero and
     saturates at 0 for negative values; it is modelled by Int.toNat of
     the floor. -/

/-! Section: fx.rs: delay_effect

    fn delay_effect(samples, sample_rate, delay_time_ms, feedback):
      let delay_samples = (sample_rate * delay_time_ms / 1000.0) as usize;
      let mut delay_buffer = vec![0.0; delay_samples];
      let mut delay_index = 0;
      for sample in samples:
        let delayed_sample = delay_buffer[delay_index];        -- panics if the buffer is empty
        let new_sample = *sample + delayed_sample * feedback;
        delay_buffer[delay_index] = new_sample;
        *sample = delayed_sample;
        delay_index = (delay_index + 1) % delay_samples; -/

def delaySamples (sample_rate delay_time_ms : ℚ) : ℕ :=
  (⌊sample_rate * delay_time_ms / 1000⌋).toNat

def delayAux (N : ℕ) (feedback : ℚ) (buf : List ℚ) (idx : ℕ) : List ℚ → List ℚ
  | [] => []
  | x :: xs =>
    let delayed := buf.getD idx 0
    delayed :: delayAux N feedback (buf.set idx (x + delayed * feedback)) ((idx + 1) % N) xs

def delay_effect (samples : List ℚ) (sample_rate delay_time_ms feedback : ℚ) :
    Option (List ℚ) :=
  let N := delaySamples sample_rate delay_time_ms
  if N = 0 ∧ samples ≠ [] then none
  else some (delayAux N feedback (List.replicate N 0) 0 samples)

/-! Section: dsp.rs: convolve

    fn convolve(signal, impulse_response):
      let n = signal.len(); let m = impulse_response.len();
      let mut output = vec![0.0; n + m - 1];      -- usize underflow panic when n = m = 0
      for i in 0..n { for j in 0..m { output[i + j] += signal[i] * impulse_response[j]; } }
      output
    For i < n and j < m we always have i + j <= n + m - 2 < n + m - 1, so
    the inner indexing never goes out of bounds once the output
    allocation succeeded. -/

def convInnerStep (signal impulse_response : List ℚ) (i : ℕ) (acc : List ℚ) (j : ℕ) :
    List ℚ :=
  acc.set (i + j) (acc.getD (i + j) 0 + signal.getD i 0 * impulse_response.getD j 0)

def convOuter (signal impulse_response : List ℚ) : List ℚ :=
  (List.range signal.length).foldl
    (fun acc i =>
      (List.range impulse_response.length).foldl (convInnerStep signal impulse_response i) acc)
    (List.replicate (signal.length + impulse_response.length - 1) 0)

def convolve (signal impulse_response : List ℚ) : Option (List ℚ) :=
  if signal.length = 0 ∧ impulse_response.length = 0 then none
  else some (convOuter signal impulse_response)

/-! Section: dsp.rs: mid/side encode and decode

    mid  = zip(L, R).map(|(l, r)| (l + r) * 0.5)
    side = zip(L, R).map(|(l, r)| (l - r) * 0.5)
    decode: left = zip(M, S).map(|(m, s)| m + s), right = zip(M, S).map(|(m, s)| m - s) -/

def mid_side_encode (left_channel right_channel : List ℚ) : List ℚ × List ℚ :=
  (List.zipWith (fun l r => (l + r) * 0.5) left_channel right_channel,
   List.zipWith (fun l r => (l - r) * 0.5) left_channel right_channel)

def mid_side_decode (mid side : List ℚ) : List ℚ × List ℚ :=
  (List.zipWith (fun m s => m + s) mid side,
   List.zipWith (fun m s => m - s) mid side)

noncomputable section

/-! Section: filters.rs: BiquadFilter

    struct BiquadFilter { b0 b1 b2 a1 a2 z1 z2 : f32 } -/

structure BiquadFilter where
  b0 : ℝ
  b1 : ℝ
  b2 : ℝ
  a1 : ℝ
  a2 : ℝ
  z1 : ℝ
  z2 : ℝ

/-- filters.rs process_sample:
    output = b0*input + b1*z1 + b2*z2 - a1*z1 - a2*z2; z2 = z1; z1 = output.
    The mutation of self is modelled by returning the updated filter. -/
def process_sample (f : BiquadFilter) (input : ℝ) : ℝ × BiquadFilter :=
  let output := f.b0 * input + f.b1 * f.z1 + f.b2 * f.z2 - f.a1 * f.z1 - f.a2 * f.z2
  (output, { f with z2 := f.z1, z1 := output })

/-- filters.rs new_lowpass.  The construction is infallible in the source:
    there is no parameter validation and no error path. -/
def new_lowpass (sample_rate cutoff_freq q_factor : ℝ) : BiquadFilter :=
  let omega := 2 * Real.pi * cutoff_freq / sample_rate
  let sin_omega := Real.sin omega
  let cos_omega := Real.cos omega
  let alpha := sin_omega / (2 * q_factor)
  let b0 := (1 - cos_omega) / 2
  let b1 := 1 - cos_omega
  let b2 := (1 - cos_omega) / 2
  let a0 := 1 + alpha
  let a1 := -2 * cos_omega
  let a2 := 1 - alpha
  { b0 := b0 / a0, b1 := b1 / a0, b2 := b2 / a0, a1 := a1 / a0, a2 := a2 / a0,
    z1 := 0, z2 := 0 }

/-- filters.rs new_highpass (infallible, no validation). -/
def new_highpass (sample_rate cutoff_freq q_factor : ℝ) : BiquadFilter :=
  let omega := 2 * Real.pi * cutoff_freq / sample_rate
  let sin_omega := Real.sin omega
  let cos_omega := Real.cos omega
  let alpha := sin_omega / (2 * q_factor)
  let b0 := (1 + cos_omega) / 2
  let b1 := -(1 + cos_omega)
  let b2 := (1 + cos_omega) / 2
  let a0 := 1 + alpha
  let a1 := -2 * cos_omega
  let a2 := 1 - alpha
  { b0 := b0 / a0, b1 := b1 / a0, b2 := b2 / a0, a1 := a1 / a0, a2 := a2 / a0,
    z1 := 0, z2 := 0 }

/-- filters.rs new_lowshelf (infallible, no validation).
    10.0_f32.powf(gain_db / 40.0) is modelled by real rpow. -/
def new_lowshelf (sample_rate cutoff_freq gain_db slope : ℝ) : BiquadFilter :=
  let a := (10 : ℝ) ^ (gain_db / 40)
  let omega := 2 * Real.pi * cutoff_freq / sample_rate
  let sin_omega := Real.sin omega
  let cos_omega := Real.cos omega
  let alpha := sin_omega / 2 * Real.sqrt ((a + 1 / a) * (1 / slope - 1) + 2)
  let beta := 2 * Real.sqrt a * alpha
  let b0 := a * ((a + 1) - (a - 1) * cos_omega + beta)
  let b1 := 2 * a * ((a - 1) - (a + 1) * cos_omega)
  let b2 := a * ((a + 1) - (a - 1) * cos_omega - beta)
  let a0 := (a + 1) + (a - 1) * cos_omega + beta
  let a1 := -2 * ((a - 1) + (a + 1) * cos_omega)
  let a2 := (a + 1) + (a - 1) * cos_omega - beta
  { b0 := b0 / a0, b1 := b1 / a0, b2 := b2 / a0, a1 := a1 / a0, a2 := a2 / a0,
    z1 := 0, z2 := 0 }

/-- filters.rs new_highshelf (infallible, no validation). -/
def new_highshelf (sample_rate cutoff_freq gain_db slope : ℝ) : BiquadFilter :=
  let a := (10 : ℝ) ^ (gain_db / 40)
  let omega := 2 * Real.pi * cutoff_freq / sample_rate
  let sin_omega := Real.sin omega
  let cos_omega := Real.cos omega
  let alpha := sin_omega / 2 * Real.sqrt ((a + 1 / a) * (1 / slope - 1) + 2)
  let beta := 2 * Real.sqrt a * alpha
  let b0 := a * ((a + 1) + (a - 1) * cos_omega + beta)
  let b1 := -2 * a * ((a - 1) + (a + 1) * cos_omega)
  let b2 := a * ((a + 1) + (a - 1) * cos_omega - beta)
  let a0 := (a + 1) - (a - 1) * cos_omega + beta
  let a1 := 2 * ((a - 1) - (a + 1) * cos_omega)
  let a2 := (a + 1) - (a - 1) * cos_omega - beta
  { b0 := b0 / a0, b1 := b1 / a0, b2 := b2 / a0, a1 := a1 / a0, a2 := a2 / a0,
    z1 := 0, z2 := 0 }

/-- filters.rs new_peaking_eq (infallible, no validation). -/
def new_peaking_eq (sample_rate freq q_factor gain_db : ℝ) : BiquadFilter :=
  let a := (10 : ℝ) ^ (gain_db / 40)
  let omega := 2 * Real.pi * freq / sample_rate
  let sin_omega := Real.sin omega
  let cos_omega := Real.cos omega
  let alpha := sin_omega / (2 * q_factor)
  let b0 := 1 + alpha * a
  let b1 := -2 * cos_omega
  let b2 := 1 - alpha * a
  let a0 := 1 + alpha / a
  let a1 := -2 * cos_omega
  let a2 := 1 - alpha / a
  { b0 := b0 / a0, b1 := b1 / a0, b2 := b2 / a0, a1 := a1 / a0, a2 := a2 / a0,
    z1 := 0, z2 := 0 }

/-- The outcome of calling new_lowpass, lifted into the error monad a
    failing constructor would need.  The source constructor has no error
    path, so the result is always `some`. -/
def lowpassResult (sample_rate cutoff_freq q_factor : ℝ) : Option BiquadFilter :=
  some (new_lowpass sample_rate cutoff_freq q_factor)

/-- Outcome of calling new_highpass (never fails in the source). -/
def highpassResult (sample_rate cutoff_freq q_factor : ℝ) : Option BiquadFilter :=
  some (new_highpass sample_rate cutoff_freq q_factor)

/-- Outcome of calling new_lowshelf (never fails in the source). -/
def lowshelfResult (sample_rate cutoff_freq gain_db slope : ℝ) : Option BiquadFilter :=
  some (new_lowshelf sample_rate cutoff_freq gain_db slope)

/-- Outcome of calling new_highshelf (never fails in the source). -/
def highshelfResult (sample_rate cutoff_freq gain_db slope : ℝ) : Option BiquadFilter :=
  some (new_highshelf sample_rate cutoff_freq gain_db slope)

/-- Outcome of calling new_peaking_eq (never fails in the source). -/
def peakingResult (sample_rate freq q_factor gain_db : ℝ) : Option BiquadFilter :=
  some (new_peaking_eq sample_rate freq q_factor gain_db)

/-- Modelled from the spec: the precondition the spec states for the
    biquad constructors, sample_rate > 0, frequency in (0, Nyquist),
    Q (or slope) > 0.  Parameters outside this set are the invalid ones
    that the spec says construction must reject. -/
def validFilterParams (sample_rate freq q : ℝ) : Prop :=
  0 < sample_rate ∧ 0 < freq ∧ freq < sample_rate / 2 ∧ 0 < q

/-! Section: filters.rs: first-order low-pass and high-pass filters

    fn low_pass_filter(samples, sample_rate, cutoff_freq):
      let rc = 1.0 / (2.0 * PI * cutoff_freq); let dt = 1.0 / sample_rate;
      let alpha = dt / (rc + dt);
      let mut previous = samples[0];             -- panics on an empty slice
      for sample in samples: previous = previous + alpha * (*sample - previous); *sample = previous;

    fn high_pass_filter(samples, sample_rate, cutoff_freq):
      let alpha = rc / (rc + dt);
      let mut previous_input = samples[0];       -- panics on an empty slice
      let mut previous_output = samples[0];
      for sample: *sample = alpha * (previous_output + current_input - previous_input); ... -/

def lpAux (alpha : ℝ) (previous : ℝ) : List ℝ → List ℝ
  | [] => []
  | x :: xs =>
    let p := previous + alpha * (x - previous)
    p :: lpAux alpha p xs

def low_pass_filter (samples : List ℝ) (sample_rate cutoff_freq : ℝ) : Option (List ℝ) :=
  let rc := 1 / (2 * Real.pi * cutoff_freq)
  let dt := 1 / sample_rate
  let alpha := dt / (rc + dt)
  match samples with
  | [] => none
  | s0 :: _ => some (lpAux alpha s0 samples)

def hpAux (alpha : ℝ) (previous_input previous_output : ℝ) : List ℝ → List ℝ
  | [] => []
  | x :: xs =>
    let y := alpha * (previous_output + x - previous_input)
    y :: hpAux alpha x y xs

def high_pass_filter (samples : List ℝ) (sample_rate cutoff_freq : ℝ) : Option (List ℝ) :=
  let rc := 1 / (2 * Real.pi * cutoff_freq)
  let dt := 1 / sample_rate
  let alpha := rc / (rc + dt)
  match samples with
  | [] => none
  | s0 :: _ => some (hpAux alpha s0 s0 samples)

/-! Section: fx.rs: compressor

    let attack_coeff  = (-1.0 / (attack_ms * 0.001 * sample_rate)).exp();
    let release_coeff = (-1.0 / (release_ms * 0.001 * sample_rate)).exp();
    let mut gain = 1.0;
    for sample in samples:
      let input_level = sample.abs();
      if input_level > threshold {
        let compressed_gain = threshold + (input_level - threshold) / ratio;
        gain = attack_coeff * (gain - compressed_gain) + compressed_gain;
      } else {
        gain = release_coeff * (gain - 1.0) + 1.0;
      }
      *sample *= gain; -/

def compressorStep (threshold ratio attack_coeff release_coeff : ℝ) (gain x : ℝ) :
    ℝ × ℝ :=
  if |x| > threshold then
    let compressed_gain := threshold + (|x| - threshold) / ratio
    let g := attack_coeff * (gain - compressed_gain) + compressed_gain
    (g, x * g)
  else
    let g := release_coeff * (gain - 1) + 1
    (g, x * g)

def compressorRun (threshold ratio attack_coeff release_coeff : ℝ) (gain : ℝ) :
    List ℝ → List ℝ
  | [] => []
  | x :: xs =>
    let p := compressorStep threshold ratio attack_coeff release_coeff gain x
    p.2 :: compressorRun threshold ratio attack_coeff release_coeff p.1 xs

def compressor (samples : List ℝ) (threshold ratio attack_ms release_ms sample_rate : ℝ) :
    List ℝ :=
  compressorRun threshold ratio
    (Real.exp (-1 / (attack_ms * 0.001 * sample_rate)))
    (Real.exp (-1 / (release_ms * 0.001 * sample_rate)))
    1 samples

/-- Modelled from the spec: one-pole exponential smoothing of the current
    gain toward a target gain with coefficient c, in the standard form
    c * gain + (1 - c) * target. -/
def smoothToward (c gain target : ℝ) : ℝ :=
  c * gain + (1 - c) * target

/-- Modelled from the spec (claim wording for the compressor): over
    threshold, smooth toward threshold + (level - threshold) / ratio with
    the attack coefficient; otherwise smooth toward unity with the
    release coefficient; output is the input times the smoothed gain. -/
def compressorSpecStep (threshold ratio attack_coeff release_coeff : ℝ) (gain x : ℝ) :
    ℝ × ℝ :=
  if |x| > threshold then
    let g := smoothToward attack_coeff gain (threshold + (|x| - threshold) / ratio)
    (g, x * g)
  else
    let g := smoothToward release_coeff gain 1
    (g, x * g)

def compressorSpecRun (threshold ratio attack_coeff release_coeff : ℝ) (gain : ℝ) :
    List ℝ → List ℝ
  | [] => []
  | x :: xs =>
    let p := compressorSpecStep threshold ratio attack_coeff release_coeff gain x
    p.2 :: compressorSpecRun threshold ratio attack_coeff release_coeff p.1 xs

/-! Section: fx.rs: noise_gate

    let attack_coeff  = (-1.0 / (attack_ms * 0.001 * sample_rate)).exp();
    let release_coeff = (-1.0 / (release_ms * 0.001 * sample_rate)).exp();
    let mut gain = 1.0;
    for sample in samples:
      let input_level = sample.abs();
      if input_level < threshold { gain = attack_coeff * (gain - 0.0) + 0.0; }
      else                       { gain = release_coeff * (gain - 1.0) + 1.0; }
      *sample *= gain;
    The run is modelled as the list of (gain after the update, output)
    pairs; the in-place output buffer is its second projection. -/

def noiseGateRun (threshold attack_coeff release_coeff : ℝ) (gain : ℝ) :
    List ℝ → List (ℝ × ℝ)
  | [] => []
  | x :: xs =>
    let g := if |x| < threshold then attack_coeff * (gain - 0) + 0
             else release_coeff * (gain - 1) + 1
    (g, x * g) :: noiseGateRun threshold attack_coeff release_coeff g xs

def noise_gate (samples : List ℝ) (threshold sample_rate attack_ms release_ms : ℝ) :
    List ℝ :=
  (noiseGateRun threshold
    (Real.exp (-1 / (attack_ms * 0.001 * sample_rate)))
    (Real.exp (-1 / (release_ms * 0.001 * sample_rate)))
    1 samples).map Prod.snd

/-! Section: eq.rs: the peaking-EQ constructor as written in eq.rs

    eq.rs contains a second impl of BiquadFilter::new_peaking_eq whose
    struct literal reads
      Self { a0: b0 / a0, a1: b1 / a0, a2: b2 / a0, b1: a1 / a0, b2: a2 / a0, z1: 0.0, z2: 0.0 }
    BiquadFilter declares no field a0 and the literal assigns no b0, so
    this does not typecheck in Rust; the record below captures the value
    assigned to each field name as written, so the assignment can be
    compared with the correct constructor in filters.rs. -/

structure EqRsPeakingFields where
  a0 : ℝ
  a1 : ℝ
  a2 : ℝ
  b1 : ℝ
  b2 : ℝ

def eq_rs_new_peaking_eq (sample_rate freq q gain_db : ℝ) : EqRsPeakingFields :=
  let omega := 2 * Real.pi * freq / sample_rate
  let alpha := Real.sin omega / (2 * q)
  let a := (10 : ℝ) ^ (gain_db / 40)
  let b0 := 1 + alpha * a
  let b1 := -2 * Real.cos omega
  let b2 := 1 - alpha * a
  let a0 := 1 + alpha / a
  let a1 := -2 * Real.cos omega
  let a2 := 1 - alpha / a
  { a0 := b0 / a0, a1 := b1 / a0, a2 := b2 / a0, b1 := a1 / a0, b2 := a2 / a0 }

end

/-! Section: Theorems -/

/-- C2: process_sample returns b0*input + b1*z1 + b2*z2 - a1*z1 - a2*z2,
    afterwards the new z2 is the old z1, the new z1 is the returned
    output, and all five coefficients are unchanged. -/
theorem process_sample_spec (f : BiquadFilter) (input : ℝ) :
    (process_sample f input).1
        = f.b0 * input + f.b1 * f.z1 + f.b2 * f.z2 - f.a1 * f.z1 - f.a2 * f.z2
    ∧ (process_sample f input).2.z2 = f.z1
    ∧ (process_sample f input).2.z1 = (process_sample f input).1
    ∧ (process_sample f input).2.b0 = f.b0
    ∧ (process_sample f input).2.b1 = f.b1
    ∧ (process_sample f input).2.b2 = f.b2
    ∧ (process_sample f input).2.a1 = f.a1
    ∧ (process_sample f input).2.a2 = f.a2 :=
  ⟨rfl, rfl, rfl, rfl, rfl, rfl, rfl, rfl⟩

/-- C1 counterexample: at sample_rate 44100 a corner frequency of 44100
    is far beyond Nyquist (22050), yet every one of the five
    constructors still returns a filter; none of them fails. -/
theorem biquad_invalid_params_still_construct :
    ¬ validFilterParams 44100 44100 1
    ∧ lowpassResult 44100 44100 1 ≠ none
    ∧ highpassResult 44100 44100 1 ≠ none
    ∧ lowshelfResult 44100 44100 0 1 ≠ none
    ∧ highshelfResult 44100 44100 0 1 ≠ none
    ∧ peakingResult 44100 44100 1 0 ≠ none := by
  refine ⟨?_, ?_, ?_, ?_, ?_, ?_⟩
  · norm_num [validFilterParams]
  · simp [lowpassResult]
  · simp [highpassResult]
  · simp [lowshelfResult]
  · simp [highshelfResult]
  · simp [peakingResult]

/-- C1 amended: the constructors perform no parameter validation at all;
    even for parameters violating the spec precondition (frequency at or
    beyond Nyquist, non-positive Q/slope or sample rate), construction
    succeeds and returns a filter. -/
theorem biquad_no_parameter_validation (sample_rate freq q gain : ℝ)
    (h : ¬ validFilterParams sample_rate freq q) :
    (lowpassResult sample_rate freq q).isSome = true
    ∧ (highpassResult sample_rate freq q).isSome = true
    ∧ (lowshelfResult sample_rate freq gain q).isSome = true
    ∧ (highshelfResult sample_rate freq gain q).isSome = true
    ∧ (peakingResult sample_rate freq q gain).isSome = true :=
  ⟨rfl, rfl, rfl, rfl, rfl⟩

/-- C1 witness: concrete invalid parameters (frequency = sample rate,
    beyond Nyquist) on which all five constructions still succeed. -/
theorem biquad_no_parameter_validation_witness :
    ¬ validFilterParams 44100 44100 1
    ∧ ((lowpassResult 44100 44100 1).isSome = true
       ∧ (highpassResult 44100 44100 1).isSome = true
       ∧ (lowshelfResult 44100 44100 0 1).isSome = true
       ∧ (highshelfResult 44100 44100 0 1).isSome = true
       ∧ (peakingResult 44100 44100 1 0).isSome = true) :=
  ⟨by norm_num [validFilterParams],
   biquad_no_parameter_validation 44100 44100 1 0 (by norm_num [validFilterParams])⟩

lemma lpAux_length (alpha : ℝ) : ∀ (xs : List ℝ) (previous : ℝ),
    (lpAux alpha previous xs).length = xs.length := by
  intro xs
  induction xs with
  | nil => intro p; rfl
  | cons x xs ih => intro p; simp [lpAux, ih]

lemma hpAux_length (alpha : ℝ) : ∀ (xs : List ℝ) (pi po : ℝ),
    (hpAux alpha pi po xs).length = xs.length := by
  intro xs
  induction xs with
  | nil => intro pi po; rfl
  | cons x xs ih => intro pi po; simp [hpAux, ih]

/-- C4 counterexample: the first-order low-pass and high-pass filters
    index samples[0] before the loop, so a zero-length buffer makes them
    panic (modelled by none) instead of completing as a no-op. -/
theorem first_order_filters_crash_on_empty :
    low_pass_filter [] 44100 100 = none ∧ high_pass_filter [] 44100 100 = none :=
  ⟨rfl, rfl⟩

/-- C4 amended: on a zero-length buffer the first-order filters panic
    (out-of-bounds read of samples[0]); on any nonempty buffer they
    complete normally, producing a buffer of the same length. -/
theorem first_order_filters_totality (samples : List ℝ) (sample_rate cutoff_freq : ℝ) :
    ((low_pass_filter samples sample_rate cutoff_freq).map List.length
        = if samples.isEmpty then none else some samples.length)
    ∧ ((high_pass_filter samples sample_rate cutoff_freq).map List.length
        = if samples.isEmpty then none else some samples.length) := by
  cases samples with
  | nil => exact ⟨rfl, rfl⟩
  | cons s ss =>
    constructor
    · simp [low_pass_filter, lpAux_length]
    · simp [high_pass_filter, hpAux_length]

lemma delayAux_length (N : ℕ) (feedback : ℚ) : ∀ (xs buf : List ℚ) (idx : ℕ),
    (delayAux N feedback buf idx xs).length = xs.length := by
  intro xs
  induction xs with
  | nil => intro buf idx; rfl
  | cons x xs ih => intro buf idx; simp [delayAux, ih]

/-- C3 counterexample: at sample_rate 1000 and delay 0.5 ms the claimed
    capacity round(1000*0.5/1000) is 1, but the code truncates to 0; the
    capacity is neither the rounded value nor at least 1, and running the
    delay effect on a nonempty buffer then panics (index out of bounds on
    the empty delay buffer). -/
theorem delay_capacity_counterexample :
    delaySamples 1000 (1 / 2) = 0
    ∧ ¬ 1 ≤ delaySamples 1000 (1 / 2)
    ∧ (delaySamples 1000 (1 / 2) : ℤ) ≠ round ((1000 : ℚ) * (1 / 2) / 1000)
    ∧ delay_effect [1] 1000 (1 / 2) 0 = none := by
  have h : delaySamples 1000 (1 / 2) = 0 := by norm_num [delaySamples]
  refine ⟨h, ?_, ?_, ?_⟩
  · rw [h]; norm_num
  · rw [h]; norm_num [round_eq]
  · simp only [delay_effect, h]; simp

/-- C3 amended: the delay buffer capacity is the truncation
    toNat(floor(sample_rate * duration_ms / 1000)) with no minimum; when
    it is 0 and the input buffer is nonempty the effect panics (none),
    and otherwise it completes, returning a buffer of the input's
    length. -/
theorem delay_capacity_truncated (samples : List ℚ) (sample_rate delay_time_ms feedback : ℚ) :
    (delay_effect samples sample_rate delay_time_ms feedback).map List.length
      = if delaySamples sample_rate delay_time_ms = 0 ∧ samples ≠ [] then none
        else some samples.length := by
  by_cases h : delaySamples sample_rate delay_time_ms = 0 ∧ samples ≠ []
  · simp [delay_effect, h]
  · simp [delay_effect, h, delayAux_length]

lemma ms_decode_fst : ∀ (L R : List ℚ), L.length = R.length →
    List.zipWith (fun m s => m + s)
      (List.zipWith (fun l r => (l + r) * 0.5) L R)
      (List.zipWith (fun l r => (l - r) * 0.5) L R) = L := by
  intro L
  induction L with
  | nil => intro R _; rfl
  | cons l L ih =>
    intro R h
    cases R with
    | nil => simp at h
    | cons r R =>
      simp only [List.zipWith_cons_cons, List.cons.injEq]
      exact ⟨by ring, ih R (by simpa using h)⟩

lemma ms_decode_snd : ∀ (L R : List ℚ), L.length = R.length →
    List.zipWith (fun m s => m - s)
      (List.zipWith (fun l r => (l + r) * 0.5) L R)
      (List.zipWith (fun l r => (l - r) * 0.5) L R) = R := by
  intro L
  induction L with
  | nil =>
    intro R h
    cases R with
    | nil => rfl
    | cons r R => simp at h
  | cons l L ih =>
    intro R h
    cases R with
    | nil => simp at h
    | cons r R =>
      simp only [List.zipWith_cons_cons, List.cons.injEq]
      exact ⟨by ring, ih R (by simpa using h)⟩

/-- C7: mid/side encoding is ((L+R)/2, (L-R)/2) elementwise, decoding is
    (M+S, M-S) elementwise, decoding after encoding reproduces any two
    equal-length channels exactly, and encoding [1,-1] with [1,1] gives
    mid [1,0] and side [0,-1]. -/
theorem mid_side_correct :
    (∀ L R : List ℚ, L.length = R.length →
        mid_side_decode (mid_side_encode L R).1 (mid_side_encode L R).2 = (L, R))
    ∧ (∀ L R : List ℚ,
        mid_side_encode L R
          = (List.zipWith (fun l r => (l + r) / 2) L R,
             List.zipWith (fun l r => (l - r) / 2) L R))
    ∧ (∀ M S : List ℚ,
        mid_side_decode M S
          = (List.zipWith (fun m s => m + s) M S, List.zipWith (fun m s => m - s) M S))
    ∧ mid_side_encode [1, -1] [1, 1] = ([1, 0], [0, -1]) := by
  refine ⟨?_, ?_, ?_, ?_⟩
  · intro L R h
    simp only [mid_side_encode, mid_side_decode, Prod.mk.injEq]
    exact ⟨ms_decode_fst L R h, ms_decode_snd L R h⟩
  · intro L R
    have h1 : (fun l r : ℚ => (l + r) * 0.5) = fun l r => (l + r) / 2 := by
      funext a b; norm_num; ring
    have h2 : (fun l r : ℚ => (l - r) * 0.5) = fun l r => (l - r) / 2 := by
      funext a b; norm_num; ring
    rw [mid_side_encode, h1, h2]
  · intro M S; rfl
  · norm_num [mid_side_encode]

/-- C7 witness: a concrete equal-length stereo pair on which decoding
    the encoding reproduces the input exactly. -/
theorem mid_side_correct_witness :
    ([2, 3] : List ℚ).length = ([5, 7] : List ℚ).length
    ∧ mid_side_decode (mid_side_encode [2, 3] [5, 7]).1 (mid_side_encode [2, 3] [5, 7]).2
        = ([2, 3], [5, 7]) :=
  ⟨rfl, mid_side_correct.1 [2, 3] [5, 7] rfl⟩

lemma getD_set_self (l : List ℚ) (n : ℕ) (v : ℚ) (h : n < l.length) :
    (l.set n v).getD n 0 = v := by
  rw [List.getD_eq_getElem?_getD, List.getElem?_set_self h, Option.getD_some]

lemma getD_set_ne (l : List ℚ) (n m : ℕ) (v : ℚ) (h : n ≠ m) :
    (l.set n v).getD m 0 = l.getD m 0 := by
  rw [List.getD_eq_getElem?_getD, List.getElem?_set_ne h, ← List.getD_eq_getElem?_getD]

lemma getD_replicate_zero : ∀ (n k : ℕ), (List.replicate n (0 : ℚ)).getD k 0 = 0 := by
  intro n
  induction n with
  | zero => intro k; rfl
  | succ n ih =>
    intro k
    cases k with
    | zero => rfl
    | succ k => simpa [List.replicate, List.getD_cons_succ] using ih k

/-- One step of the circular-buffer cursor: writing x at the cursor and
    advancing modulo N rotates the buffer window by one and appends the
    written sample. -/
lemma rotate_step (buf : List ℚ) (idx : ℕ) (x : ℚ) (N : ℕ)
    (hlen : buf.length = N) (hidx : idx < N) :
    (buf.set idx x).drop ((idx + 1) % N) ++ (buf.set idx x).take ((idx + 1) % N)
      = buf.drop (idx + 1) ++ (buf.take idx ++ [x]) := by
  have hidx' : idx < buf.length := by omega
  have hset : buf.set idx x = buf.take idx ++ x :: buf.drop (idx + 1) := by
    rw [List.set_eq_take_append_cons_drop, if_pos hidx']
  have htl : (buf.take idx).length = idx := by
    rw [List.length_take]; omega
  rcases Nat.lt_or_ge (idx + 1) N with hlt | hge
  · rw [Nat.mod_eq_of_lt hlt, hset]
    have e1 : (buf.take idx ++ x :: buf.drop (idx + 1)).drop (idx + 1)
        = buf.drop (idx + 1) := by
      have h1 : idx + 1 = (buf.take idx).length + 1 := by omega
      rw [h1, List.drop_append, List.drop_succ_cons, List.drop_zero]
    have e2 : (buf.take idx ++ x :: buf.drop (idx + 1)).take (idx + 1)
        = buf.take idx ++ [x] := by
      have h1 : idx + 1 = (buf.take idx).length + 1 := by omega
      rw [h1, List.take_append]
      rfl
    rw [e1, e2]
  · have heq : idx + 1 = N := by omega
    rw [heq, Nat.mod_self, List.drop_zero, List.take_zero, List.append_nil, hset]
    have hdrop : buf.drop N = [] := by
      rw [← hlen]; exact List.drop_length buf
    rw [heq, hdrop, List.nil_append]

/-- With zero feedback the delay loop is a pure circular tap: starting
    from any buffer state it emits the rotated buffer contents followed
    by the inputs, truncated to the input length. -/
lemma delayAux_zero_feedback : ∀ (xs buf : List ℚ) (idx N : ℕ),
    buf.length = N → idx < N →
    delayAux N 0 buf idx xs = ((buf.drop idx ++ buf.take idx) ++ xs).take xs.length := by
  intro xs
  induction xs with
  | nil => intro buf idx N _ _; rfl
  | cons x xs ih =>
    intro buf idx N hlen hidx
    have hidx' : idx < buf.length := by omega
    have hNpos : 0 < N := by omega
    have hgetD : buf.getD idx 0 = buf[idx] := List.getD_eq_getElem buf 0 hidx'
    have hdropc : buf.drop idx = buf[idx] :: buf.drop (idx + 1) :=
      List.drop_eq_getElem_cons hidx'
    have hx : x + buf.getD idx 0 * 0 = x := by ring
    rw [delayAux]
    simp only [hx]
    rw [ih (buf.set idx x) ((idx + 1) % N) N (by rw [List.length_set]; exact hlen)
        (Nat.mod_lt _ hNpos)]
    rw [rotate_step buf idx x N hlen hidx]
    rw [hdropc, hgetD]
    simp only [List.cons_append, List.length_cons, List.take_succ_cons, List.cons.injEq,
      true_and]
    simp [List.append_assoc]

lemma getD_take_of_lt (l : List ℚ) (n i : ℕ) (h : i < n) :
    (l.take n).getD i 0 = l.getD i 0 := by
  rw [List.getD_eq_getElem?_getD, List.getElem?_take, if_pos h, ← List.getD_eq_getElem?_getD]

/-- The element at index i of N leading zeros followed by the inputs is
    0 before index N and the input delayed by N afterwards. -/
lemma tap_elementwise (N : ℕ) (xs : List ℚ) (i : ℕ) (hi : i < xs.length) :
    ((List.replicate N (0 : ℚ) ++ xs).take xs.length).getD i 0
      = if i < N then 0 else xs.getD (i - N) 0 := by
  rw [getD_take_of_lt _ _ _ hi]
  by_cases h : i < N
  · rw [if_pos h, List.getD_append _ _ _ _ (by simpa [List.length_replicate] using h)]
    exact getD_replicate_zero N i
  · rw [if_neg h, List.getD_append_right _ _ _ _ (by simpa [List.length_replicate] using h)]
    rw [List.length_replicate]

/-- C8: with feedback 0 the delay effect is a pure delay tap, not a
    dry+wet mix: output i is 0 for i < N and input (i - N) for i >= N,
    where N >= 1 is the delay-line capacity. -/
theorem delay_effect_is_pure_tap (sample_rate delay_time_ms : ℚ) (samples : List ℚ)
    (h : 1 ≤ delaySamples sample_rate delay_time_ms) :
    delay_effect samples sample_rate delay_time_ms 0
      = some ((List.replicate (delaySamples sample_rate delay_time_ms) 0 ++ samples).take
          samples.length)
    ∧ ∀ i < samples.length,
        ((List.replicate (delaySamples sample_rate delay_time_ms) 0 ++ samples).take
            samples.length).getD i 0
          = if i < delaySamples sample_rate delay_time_ms then 0
            else samples.getD (i - delaySamples sample_rate delay_time_ms) 0 := by
  constructor
  · have hcond : ¬ (delaySamples sample_rate delay_time_ms = 0 ∧ samples ≠ []) := by
      intro hc; omega
    simp only [delay_effect, if_neg hcond, Option.some.injEq]
    have hrun := delayAux_zero_feedback samples
      (List.replicate (delaySamples sample_rate delay_time_ms) 0) 0
      (delaySamples sample_rate delay_time_ms) (List.length_replicate _ _) (by omega)
    simpa using hrun
  · intro i hi
    exact tap_elementwise _ samples i hi

/-- C8 witness: capacity 4 (sample rate 4000, delay 1 ms) on inputs
    [1,2,3,4,5] produces [0,0,0,0,1]. -/
theorem delay_effect_is_pure_tap_witness :
    1 ≤ delaySamples 4000 1
    ∧ delay_effect [1, 2, 3, 4, 5] 4000 1 0 = some [0, 0, 0, 0, 1] := by
  have h4 : delaySamples 4000 1 = 4 := by norm_num [delaySamples]; rfl
  have h1 : 1 ≤ delaySamples 4000 1 := by omega
  refine ⟨h1, ?_⟩
  rw [(delay_effect_is_pure_tap 4000 1 [1, 2, 3, 4, 5] h1).1, h4]
  rfl

lemma foldl_length_preserved {α : Type} (f : List ℚ → α → List ℚ)
    (hf : ∀ (acc : List ℚ) (a : α), (f acc a).length = acc.length) :
    ∀ (L : List α) (acc : List ℚ), (L.foldl f acc).length = acc.length := by
  intro L
  induction L with
  | nil => intro acc; rfl
  | cons a L ih => intro acc; rw [List.foldl_cons, ih, hf]

lemma convInnerStep_length (signal impulse_response : List ℚ) (i : ℕ) (acc : List ℚ)
    (j : ℕ) : (convInnerStep signal impulse_response i acc j).length = acc.length :=
  List.length_set acc (i + j) _

/-- Accumulating signal[i]*impulse[j] into slot i+j over a list of inner
    indices adds, at each in-range slot k, the sum of the terms whose
    target index i+j equals k. -/
lemma inner_fold_getD (signal impulse_response : List ℚ) (i : ℕ) :
    ∀ (L : List ℕ) (acc : List ℚ) (k : ℕ), k < acc.length →
    (L.foldl (convInnerStep signal impulse_response i) acc).getD k 0
      = acc.getD k 0
        + ((L.map (fun j =>
            if i + j = k then signal.getD i 0 * impulse_response.getD j 0 else 0)).sum) := by
  intro L
  induction L with
  | nil => intro acc k hk; simp
  | cons j L ih =>
    intro acc k hk
    rw [List.foldl_cons,
      ih (convInnerStep signal impulse_response i acc j) k
        (by rw [convInnerStep_length]; exact hk)]
    by_cases hj : i + j = k
    · subst hj
      rw [convInnerStep, getD_set_self _ _ _ hk]
      simp only [eq_self_iff_true, if_true, List.map_cons, List.sum_cons]
      ring
    · rw [convInnerStep, getD_set_ne _ _ _ _ hj]
      simp only [if_neg hj, List.map_cons, List.sum_cons, zero_add]

/-- The outer fold over the signal indices accumulates the inner sums. -/
lemma outer_fold_getD (signal impulse_response : List ℚ) :
    ∀ (L : List ℕ) (acc : List ℚ) (k : ℕ), k < acc.length →
    ((L.foldl (fun acc2 i =>
        (List.range impulse_response.length).foldl
          (convInnerStep signal impulse_response i) acc2) acc)).getD k 0
      = acc.getD k 0
        + (L.map (fun i => ((List.range impulse_response.length).map
            (fun j =>
              if i + j = k then signal.getD i 0 * impulse_response.getD j 0 else 0)).sum)).sum := by
  intro L
  induction L with
  | nil => intro acc k hk; simp
  | cons i L ih =>
    intro acc k hk
    have hlen : ((List.range impulse_response.length).foldl
        (convInnerStep signal impulse_response i) acc).length = acc.length :=
      foldl_length_preserved _ (convInnerStep_length signal impulse_response i) _ acc
    rw [List.foldl_cons, ih _ k (by rw [hlen]; exact hk),
      inner_fold_getD signal impulse_response i _ acc k hk]
    simp only [List.map_cons, List.sum_cons]
    ring

lemma list_range_map_sum (f : ℕ → ℚ) : ∀ (n : ℕ),
    ((List.range n).map f).sum = ∑ j ∈ Finset.range n, f j := by
  intro n
  induction n with
  | zero => rfl
  | succ n ih =>
    rw [List.range_succ, List.map_append, List.sum_append, Finset.sum_range_succ, ih]
    simp

/-- C9 counterexample: convolving two empty buffers does not return a
    buffer at all; allocating a vector of length 0 + 0 - 1 underflows
    usize and the code panics. -/
theorem convolve_counterexample : convolve ([] : List ℚ) [] = none := rfl

/-- C9 amended: whenever the two inputs are not both empty, convolution
    returns a buffer of length len(signal) + len(impulse) - 1 whose
    element k is the sum of signal[i] * impulse[j] over all i + j = k. -/
theorem convolve_correct (signal impulse_response : List ℚ)
    (h : signal.length + impulse_response.length ≠ 0) :
    convolve signal impulse_response = some (convOuter signal impulse_response)
    ∧ (convOuter signal impulse_response).length
        = signal.length + impulse_response.length - 1
    ∧ ∀ k < signal.length + impulse_response.length - 1,
        (convOuter signal impulse_response).getD k 0
          = ∑ i ∈ Finset.range signal.length, ∑ j ∈ Finset.range impulse_response.length,
              if i + j = k then signal.getD i 0 * impulse_response.getD j 0 else 0 := by
  have hcond : ¬ (signal.length = 0 ∧ impulse_response.length = 0) := by omega
  have hlen : (convOuter signal impulse_response).length
      = signal.length + impulse_response.length - 1 := by
    rw [convOuter,
      foldl_length_preserved _
        (fun acc i => foldl_length_preserved _
          (convInnerStep_length signal impulse_response i) _ acc) _ _,
      List.length_replicate]
  refine ⟨by simp only [convolve, if_neg hcond], hlen, ?_⟩
  intro k hk
  rw [convOuter,
    outer_fold_getD signal impulse_response _ _ k
      (by rw [List.length_replicate]; exact hk),
    getD_replicate_zero, zero_add, list_range_map_sum]
  exact Finset.sum_congr rfl fun i _ => list_range_map_sum _ _

/-- C9 witness: a length-5 signal convolved with a length-3 impulse
    response yields an output buffer of length 7. -/
theorem convolve_correct_witness :
    (([1, 2, 3, 4, 5] : List ℚ).length + ([1, 1, 1] : List ℚ).length ≠ 0)
    ∧ (convOuter [1, 2, 3, 4, 5] [1, 1, 1]).length = 7 := by
  refine ⟨by simp, ?_⟩
  have h := (convolve_correct [1, 2, 3, 4, 5] [1, 1, 1] (by simp)).2.1
  simpa using h

lemma compressorStep_eq_spec (threshold ratio attack_coeff release_coeff gain x : ℝ) :
    compressorStep threshold ratio attack_coeff release_coeff gain x
      = compressorSpecStep threshold ratio attack_coeff release_coeff gain x := by
  by_cases h : |x| > threshold
  · simp only [compressorStep, compressorSpecStep, smoothToward, if_pos h, Prod.mk.injEq]
    exact ⟨by ring, by ring⟩
  · simp only [compressorStep, compressorSpecStep, smoothToward, if_neg h, Prod.mk.injEq]
    exact ⟨by ring, by ring⟩

lemma compressorRun_eq_spec (threshold ratio attack_coeff release_coeff : ℝ) :
    ∀ (xs : List ℝ) (gain : ℝ),
    compressorRun threshold ratio attack_coeff release_coeff gain xs
      = compressorSpecRun threshold ratio attack_coeff release_coeff gain xs := by
  intro xs
  induction xs with
  | nil => intro gain; rfl
  | cons x xs ih =>
    intro gain
    simp only [compressorRun, compressorSpecRun, compressorStep_eq_spec]
    rw [ih]

/-- C6: the compressor uses exp(-1/(time_ms*0.001*sample_rate)) as both
    one-pole smoothing coefficients; per sample, an input over the
    threshold smooths the gain toward threshold + (|x|-threshold)/ratio
    with the attack coefficient and any other input smooths it toward 1
    with the release coefficient (the choice depending only on the
    threshold crossing, not on the direction of the gain change), and the
    output is the input times the smoothed gain. -/
theorem compressor_matches_spec (threshold ratio attack_ms release_ms sample_rate : ℝ)
    (samples : List ℝ) (hatt : 0 < attack_ms) (hrel : 0 < release_ms)
    (hsr : 0 < sample_rate) (hth : 0 ≤ threshold) :
    compressor samples threshold ratio attack_ms release_ms sample_rate
      = compressorSpecRun threshold ratio
          (Real.exp (-1 / (attack_ms * 0.001 * sample_rate)))
          (Real.exp (-1 / (release_ms * 0.001 * sample_rate))) 1 samples
    ∧ (∀ gain x : ℝ, |x| > threshold →
        (compressorStep threshold ratio
            (Real.exp (-1 / (attack_ms * 0.001 * sample_rate)))
            (Real.exp (-1 / (release_ms * 0.001 * sample_rate))) gain x).1
          = smoothToward (Real.exp (-1 / (attack_ms * 0.001 * sample_rate))) gain
              (threshold + (|x| - threshold) / ratio))
    ∧ (∀ gain x : ℝ, ¬ |x| > threshold →
        (compressorStep threshold ratio
            (Real.exp (-1 / (attack_ms * 0.001 * sample_rate)))
            (Real.exp (-1 / (release_ms * 0.001 * sample_rate))) gain x).1
          = smoothToward (Real.exp (-1 / (release_ms * 0.001 * sample_rate))) gain 1) := by
  refine ⟨?_, ?_, ?_⟩
  · rw [compressor]
    exact compressorRun_eq_spec _ _ _ _ samples 1
  · intro gain x h
    simp only [compressorStep, if_pos h, smoothToward]
    ring
  · intro gain x h
    simp only [compressorStep, if_neg h, smoothToward]
    ring

/-- C6 witness: concrete positive time constants and sample rate at
    which the compressor run matches the spec-side run. -/
theorem compressor_matches_spec_witness :
    ((0:ℝ) < 10 ∧ (0:ℝ) < 20 ∧ (0:ℝ) < 100 ∧ (0:ℝ) ≤ 1)
    ∧ compressor [0] 1 2 10 20 100
        = compressorSpecRun 1 2 (Real.exp (-1 / (10 * 0.001 * 100)))
            (Real.exp (-1 / (20 * 0.001 * 100))) 1 [0] :=
  ⟨⟨by norm_num, by norm_num, by norm_num, by norm_num⟩,
   (compressor_matches_spec 1 2 10 20 100 [0]
      (by norm_num) (by norm_num) (by norm_num) (by norm_num)).1⟩

/-- Invariant of the noise-gate loop: with smoothing coefficients in
    [0, 1] and a starting gain in [0, 1], every per-sample gain stays in
    [0, 1] and every output is no larger in magnitude than its input. -/
lemma noiseGateRun_bounds (threshold attack_coeff release_coeff : ℝ)
    (ha0 : 0 ≤ attack_coeff) (ha1 : attack_coeff ≤ 1)
    (hr0 : 0 ≤ release_coeff) (hr1 : release_coeff ≤ 1) :
    ∀ (xs : List ℝ) (gain : ℝ), 0 ≤ gain → gain ≤ 1 →
    List.Forall₂ (fun (p : ℝ × ℝ) x => (0 ≤ p.1 ∧ p.1 ≤ 1) ∧ |p.2| ≤ |x|)
      (noiseGateRun threshold attack_coeff release_coeff gain xs) xs := by
  intro xs
  induction xs with
  | nil => intro gain _ _; exact List.Forall₂.nil
  | cons x xs ih =>
    intro gain hg0 hg1
    rw [noiseGateRun]
    have hb : (0 ≤ (if |x| < threshold then attack_coeff * (gain - 0) + 0
            else release_coeff * (gain - 1) + 1))
        ∧ ((if |x| < threshold then attack_coeff * (gain - 0) + 0
            else release_coeff * (gain - 1) + 1) ≤ 1) := by
      by_cases hx : |x| < threshold
      · rw [if_pos hx]
        constructor
        · nlinarith [mul_nonneg ha0 hg0]
        · nlinarith [mul_le_one₀ ha1 hg0 hg1]
      · rw [if_neg hx]
        constructor
        · nlinarith [mul_le_one₀ hr1 (by linarith : (0:ℝ) ≤ 1 - gain)
            (by linarith : 1 - gain ≤ 1)]
        · nlinarith [mul_nonneg hr0 (by linarith : (0:ℝ) ≤ 1 - gain)]
    refine List.Forall₂.cons ⟨hb, ?_⟩ (ih _ hb.1 hb.2)
    rw [abs_mul, abs_of_nonneg hb.1]
    exact mul_le_of_le_one_right (abs_nonneg x) hb.2

/-- C10: with positive attack, release and sample rate the noise gate's
    internal gain starts at 1 and stays in [0, 1] after every processed
    sample, so every output sample satisfies |output| <= |input|: the
    gate never amplifies. -/
theorem noise_gate_never_amplifies (threshold sample_rate attack_ms release_ms : ℝ)
    (samples : List ℝ) (hatt : 0 < attack_ms) (hrel : 0 < release_ms)
    (hsr : 0 < sample_rate) :
    noise_gate samples threshold sample_rate attack_ms release_ms
      = (noiseGateRun threshold (Real.exp (-1 / (attack_ms * 0.001 * sample_rate)))
          (Real.exp (-1 / (release_ms * 0.001 * sample_rate))) 1 samples).map Prod.snd
    ∧ List.Forall₂ (fun (p : ℝ × ℝ) x => (0 ≤ p.1 ∧ p.1 ≤ 1) ∧ |p.2| ≤ |x|)
        (noiseGateRun threshold (Real.exp (-1 / (attack_ms * 0.001 * sample_rate)))
          (Real.exp (-1 / (release_ms * 0.001 * sample_rate))) 1 samples) samples := by
  have hA : (0:ℝ) < attack_ms * 0.001 * sample_rate := by positivity
  have hR : (0:ℝ) < release_ms * 0.001 * sample_rate := by positivity
  have ha1 : Real.exp (-1 / (attack_ms * 0.001 * sample_rate)) ≤ 1 := by
    have hx : -1 / (attack_ms * 0.001 * sample_rate) ≤ 0 :=
      le_of_lt (div_neg_of_neg_of_pos (by norm_num) hA)
    calc Real.exp (-1 / (attack_ms * 0.001 * sample_rate))
        ≤ Real.exp 0 := Real.exp_le_exp.mpr hx
      _ = 1 := Real.exp_zero
  have hr1 : Real.exp (-1 / (release_ms * 0.001 * sample_rate)) ≤ 1 := by
    have hx : -1 / (release_ms * 0.001 * sample_rate) ≤ 0 :=
      le_of_lt (div_neg_of_neg_of_pos (by norm_num) hR)
    calc Real.exp (-1 / (release_ms * 0.001 * sample_rate))
        ≤ Real.exp 0 := Real.exp_le_exp.mpr hx
      _ = 1 := Real.exp_zero
  exact ⟨rfl,
    noiseGateRun_bounds threshold _ _ (Real.exp_pos _).le ha1 (Real.exp_pos _).le hr1
      samples 1 (by norm_num) le_rfl⟩

/-- C10 witness: concrete positive parameters and a concrete buffer on
    which the gate's gains stay in [0, 1] and no sample is amplified. -/
theorem noise_gate_never_amplifies_witness :
    ((0:ℝ) < 10 ∧ (0:ℝ) < 20 ∧ (0:ℝ) < 100)
    ∧ List.Forall₂ (fun (p : ℝ × ℝ) x => (0 ≤ p.1 ∧ p.1 ≤ 1) ∧ |p.2| ≤ |x|)
        (noiseGateRun 0.1 (Real.exp (-1 / (10 * 0.001 * 100)))
          (Real.exp (-1 / (20 * 0.001 * 100))) 1 [1, -2]) [1, -2] :=
  ⟨⟨by norm_num, by norm_num, by norm_num⟩,
   (noise_gate_never_amplifies 0.1 100 10 20 [1, -2]
      (by norm_num) (by norm_num) (by norm_num)).2⟩

/-- C5 (code-bug evaluation): at sample_rate 44100, frequency 11025
    (omega = pi/2), Q = 1/2 and gain 40 dB, the value the eq.rs struct
    literal assigns to the field named b2 (namely a2/a0 of the RBJ
    formulas) differs from the correct peaking-EQ b2 coefficient that
    filters.rs stores; the eq.rs literal routes each feedback value into
    the same-named feedforward field and vice versa. -/
theorem eq_rs_peaking_swaps_coefficients :
    (eq_rs_new_peaking_eq 44100 11025 (1 / 2) 40).b2
        ≠ (new_peaking_eq 44100 11025 (1 / 2) 40).b2
    ∧ (eq_rs_new_peaking_eq 44100 11025 (1 / 2) 40).b2
        = (new_peaking_eq 44100 11025 (1 / 2) 40).a2
    ∧ (eq_rs_new_peaking_eq 44100 11025 (1 / 2) 40).a2
        = (new_peaking_eq 44100 11025 (1 / 2) 40).b2 := by
  have hω : (2 * Real.pi * 11025 / 44100 : ℝ) = Real.pi / 2 := by ring
  have hsin : Real.sin (2 * Real.pi * 11025 / 44100) = 1 := by
    rw [hω, Real.sin_pi_div_two]
  have ha : ((10 : ℝ) ^ ((40 : ℝ) / 40)) = 10 := by
    rw [show ((40 : ℝ) / 40) = 1 by norm_num, Real.rpow_one]
  refine ⟨?_, rfl, rfl⟩
  simp only [eq_rs_new_peaking_eq, new_peaking_eq, hsin, ha]
  norm_num
